import Mathlib

/-!
Verification of the jwt-hack secret-recovery core.

A shallow embedding, in Lean 4, of the data model and operations of the
jwt-hack JWT toolkit: the CLI argument helpers and the logger are embedded
from the Rust sources (`src/cmd/mod.rs`, `src/printing/mod.rs`); the
cracking engine itself (Signature Oracle, Candidate Source, Crack
Scheduler) is not present in the available sources — only its CLI caller
is — so it is modelled from the specification's own description, with each
such definition marked `Modelled from the spec:`.

Strings are embedded as `List Char`, bytes as `Nat` (values < 256 where it
matters, though nothing below depends on the bound).
-/

namespace JwtHack

/-! ## CLI helpers (from `src/cmd/mod.rs`) -/

/-- Embeds `parse_key_value` from `src/cmd/mod.rs`: find the first `=` in
the input; if none, fail; otherwise return the text before the first `=`
and the whole text after it.  `none` models the `Err` case (the Rust error
carries only a diagnostic message). -/
def parse_key_value (s : List Char) : Option (List Char × List Char) :=
  (s.findIdx? (· == '=')).map (fun p => (s.take p, s.drop (p + 1)))

/-- An optional leading `+` sign, as `usize::from_str` allows. -/
def stripPlus : List Char → List Char
  | '+' :: rest => rest
  | s => s

/-- The numeric value of a run of decimal digits, most significant
first. -/
def decimalValue (s : List Char) : Nat :=
  s.foldl (fun a c => a * 10 + (c.toNat - 48)) 0

/-- Embeds Rust's `usize::from_str` as used by clap for the `concurrency`
and `max` arguments of the `crack` subcommand (`src/cmd/mod.rs`): an
optional leading `+`, then one or more decimal digits, value below
`2 ^ 64` (64-bit `usize`); anything else is rejected. -/
def parseUsize (s : List Char) : Option Nat :=
  let digits := stripPlus s
  if digits = [] then none
  else if digits.all Char.isDigit then
    if decimalValue digits < 2 ^ 64 then some (decimalValue digits) else none
  else none

/-- Embeds clap's parsing of the two numeric options of `Commands::Crack`
(`src/cmd/mod.rs` lines 97–103): `concurrency: usize` and `max: usize`,
both plain `usize` values with no further validation. -/
def parseCrackNats (conc maxs : List Char) : Option (Nat × Nat) := do
  let c ← parseUsize conc
  let m ← parseUsize maxs
  some (c, m)

/-! ## Logger (from `src/printing/mod.rs`) -/

/-- The five levels of the `log` crate, in its declaration order
(`Error = 1` through `Trace = 5`). -/
inductive Level where
  | error
  | warn
  | info
  | debug
  | trace
  deriving DecidableEq, Repr

/-- The numeric value the `log` crate assigns to each level; `<=` on
`log::Level` compares these values. -/
def levelValue : Level → Nat
  | .error => 1
  | .warn => 2
  | .info => 3
  | .debug => 4
  | .trace => 5

/-- Embeds `PrettyLogger::enabled` (`src/printing/mod.rs` lines 13–15):
`metadata.level() <= Level::Info`. -/
def enabled (l : Level) : Bool :=
  levelValue l ≤ levelValue .info

/-- A log record: its level and its formatted arguments. -/
structure LogRecord where
  level : Level
  args : List Char

/-- `colored`-crate styling: an ANSI escape prefix and the reset suffix. -/
def ansi (code : List Char) (s : List Char) : List Char :=
  '\x1b' :: '[' :: code ++ 'm' :: s ++ ['\x1b', '[', '0', 'm']

/-- Embeds `PrettyLogger::log` (`src/printing/mod.rs` lines 17–44): if the
record is enabled, build the `[timestamp] [LEVEL] message` line exactly as
the Rust code does (including the per-level colour branches for all five
levels, `Debug` and `Trace` included) and return it; otherwise write
nothing (`none`).  The timestamp is an input, since the Rust code reads
the wall clock. -/
def logWrite (timestamp : List Char) (r : LogRecord) : Option (List Char) :=
  if enabled r.level then
    let level_str : List Char := match r.level with
      | .error => ansi ['9', '1'] "ERROR".data
      | .warn => ansi ['3', '3'] "WARN ".data
      | .info => ansi ['9', '4'] "INFO ".data
      | .debug => ansi ['3', '6'] "DEBUG".data
      | .trace => "TRACE".data
    let message : List Char := match r.level with
      | .error => ansi ['9', '1'] r.args
      | .warn => ansi ['3', '3'] r.args
      | .info => r.args
      | .debug => ansi ['3', '6'] r.args
      | .trace => r.args
    some ('[' :: ansi ['2'] timestamp ++ [']', ' ', '['] ++ level_str
      ++ [']', ' '] ++ message)
  else none

/-! ## Signature Oracle (modelled from SECTIONS 3 and 4.2 of the spec;
the Rust crack engine is not among the available sources) -/

/-- Modelled from the spec: the three HMAC algorithms supported for
cracking (`HS256`, `HS384`, `HS512`); others are rejected upstream. -/
inductive Algorithm where
  | HS256
  | HS384
  | HS512
  deriving DecidableEq, Repr

/-- Modelled from the spec: a Token as consumed by the crack engine —
the exact signing input bytes (header `.` payload, byte-identical to the
original), the declared HMAC algorithm, and the raw signature bytes. -/
structure Token where
  signing_input : List Char
  algorithm : Algorithm
  signature : List Nat

/-- A keyed-digest function: `Algorithm → key → message → digest bytes`.
The HMAC-SHA-2 primitives themselves are external library calls in the
spec's design; the development is parametric in them. -/
def HmacFn : Type := Algorithm → List Char → List Char → List Nat

/-- Modelled from the spec: the accumulator pass of a fixed-time byte
comparison — fold over the zipped byte lists, OR-ing the XOR of each pair
into an accumulator, never exiting early.  Returns the accumulator
together with the number of byte operations performed. -/
def ctFold (a b : List Nat) : Nat × Nat :=
  (a.zip b).foldl (fun acc p => (acc.1 ||| (p.1 ^^^ p.2), acc.2 + 1)) (0, 0)

/-- Modelled from the spec: fixed-time equality of two byte strings —
equal lengths, and a zero OR-of-XORs accumulator. -/
def ctEqBytes (a b : List Nat) : Bool :=
  (a.length == b.length) && ((ctFold a b).1 == 0)

/-- The number of byte operations `ctEqBytes` performs on its inputs. -/
def ctSteps (a b : List Nat) : Nat :=
  (ctFold a b).2

/-- Modelled from the spec (§4.2): the Signature Oracle — compute the
keyed hash of the signing input with the candidate as key under the
declared algorithm, and compare it to the expected signature with the
fixed-time comparison. -/
def verify (hmac : HmacFn) (candidate : List Char) (signing_input : List Char)
    (algorithm : Algorithm) (expected_signature : List Nat) : Bool :=
  ctEqBytes (hmac algorithm candidate signing_input) expected_signature

/-- The oracle a crack run uses: `verify` applied at the original Token's
signing input, algorithm and expected signature. -/
def oracleOf (hmac : HmacFn) (tok : Token) : List Char → Bool :=
  fun c => verify hmac c tok.signing_input tok.algorithm tok.signature

/-! ## Dictionary Candidate Source (modelled from §4.3 of the spec) -/

/-- Strip one trailing carriage return, as part of stripping a `\r\n`
line terminator. -/
def stripCR (l : List Char) : List Char :=
  if l.getLast? = some '\r' then l.dropLast else l

/-- Modelled from the spec: the streaming scanner behind the dictionary
Candidate Source.  It walks the file content character by character,
accumulating the current line (in reverse); on a newline it strips a
trailing `\r`, emits the line if non-empty, and continues; at end of
input it emits the final unterminated line if non-empty. -/
def readLinesAux : List Char → List Char → List (List Char)
  | acc, [] => if acc.isEmpty then [] else [acc.reverse]
  | acc, c :: rest =>
    if c = '\n' then
      let line := stripCR acc.reverse
      if line.isEmpty then readLinesAux [] rest
      else line :: readLinesAux [] rest
    else readLinesAux (c :: acc) rest

/-- Modelled from the spec: the dictionary Candidate Source applied to
the full content of a readable wordlist file — one candidate per
non-empty line, in file order, trailing line terminators stripped. -/
def readLines (content : List Char) : List (List Char) :=
  readLinesAux [] content

/-- Format a list of newline-separated pieces the way the spec
describes the dictionary source: every piece but the last was
terminated by a `\n` (so a trailing `\r` belongs to a `\r\n` terminator
and is stripped); keep the non-empty results in order. -/
def linesFmt (pieces : List (List Char)) : List (List Char) :=
  ((pieces.dropLast.map stripCR) ++ [pieces.getLastD []]).filter
    (fun l => !l.isEmpty)

/-- The declarative description of the candidate list the spec
promises: split the file on `\n`, strip terminators, skip empties. -/
def linesSpec (content : List Char) : List (List Char) :=
  linesFmt (content.splitOn '\n')

/-! ## Brute-force Candidate Source (modelled from §4.3 of the spec) -/

/-- Walk the alphabet keeping the first occurrence of each character;
`seen` collects the characters already emitted. -/
def dedupAux (seen : List Char) : List Char → List Char
  | [] => []
  | c :: cs =>
    if c ∈ seen then dedupAux seen cs
    else c :: dedupAux (c :: seen) cs

/-- Modelled from the spec: the alphabet is order-preserving with
duplicates removed. -/
def dedupChars (l : List Char) : List Char :=
  dedupAux [] l

/-- Modelled from the spec: one tick of the base-`N` counter, least
significant digit first — increment the low digit, carrying into the
higher digits; `none` when the counter rolls over past the all-`N-1`
string. -/
def incLE (N : Nat) : List Nat → Option (List Nat)
  | [] => none
  | d :: ds =>
    if d + 1 < N then some ((d + 1) :: ds)
    else (incLE N ds).map (fun t => 0 :: t)

/-- The canonical base-`N` digit string of `v`, least significant digit
first, padded to `L` digits. -/
def digLE (N : Nat) : Nat → Nat → List Nat
  | 0, _ => []
  | L + 1, v => v % N :: digLE N L (v / N)

/-- Modelled from the spec: run the counter forward, collecting every
state, for at most `fuel` ticks (the generator is bounded, O(1)-memory
iteration, not materialized recursion). -/
def iterCounter (N : Nat) : Nat → List Nat → List (List Nat)
  | 0, _ => []
  | fuel + 1, c =>
    c :: (match incLE N c with
      | none => []
      | some c2 => iterCounter N fuel c2)

/-- Modelled from the spec: all counter states of width `L`, starting
from the all-zero string and counting upward. -/
def counterSeq (N L : Nat) : List (List Nat) :=
  iterCounter N (N ^ L) (List.replicate L 0)

/-- Render a counter state as a string: most significant digit first,
digit `i` is the `i`-th alphabet character (so the first alphabet
character is digit 0). -/
def renderCounter (alphabet : List Char) (ds : List Nat) : List Char :=
  ds.reverse.map (fun i => alphabet.getD i ' ')

/-- Modelled from the spec: every string of length `L` over the
alphabet, in base-`N` counter order. -/
def stringsOfLength (alphabet : List Char) (L : Nat) : List (List Char) :=
  (counterSeq alphabet.length L).map (renderCounter alphabet)

/-- Modelled from the spec: the brute-force Candidate Source — strings
of lengths 1 through `max` over the deduplicated alphabet, ordered by
increasing length, counter order within a length. -/
def bruteforceCandidates (chars : List Char) (max : Nat) : List (List Char) :=
  (List.range max).flatMap
    (fun i => stringsOfLength (dedupChars chars) (i + 1))

/-- The spec-side length-`L` base-`N` numeral of `v` over the alphabet,
most significant character first: the leading character is digit
`v / N ^ (L-1)`, and so on down. -/
def baseNString (alphabet : List Char) : Nat → Nat → List Char
  | 0, _ => []
  | L + 1, v =>
    alphabet.getD (v / alphabet.length ^ L) ' ' ::
      baseNString alphabet L (v % alphabet.length ^ L)

/-- Modelled from the spec: the total brute-force keyspace size
`sum_{L=1..max} N ^ L`, computed by closed recurrence on numbers alone,
without materializing any candidate. -/
def bruteKeyspace (N : Nat) : Nat → Nat
  | 0 => 0
  | m + 1 => bruteKeyspace N m + N ^ (m + 1)

/-! ## Crack Scheduler (modelled from §§4.4, 5 and 9 of the spec) -/

/-- Modelled from the spec: the per-worker state — waiting to dequeue,
evaluating one candidate, or stopped. -/
inductive WStatus where
  | idle
  | busy (c : List Char)
  | stopped
  deriving DecidableEq, Repr

/-- Whether a worker currently holds a candidate. -/
def isBusy : WStatus → Bool
  | .busy _ => true
  | _ => false

/-- Whether a worker has exited. -/
def isStoppedW : WStatus → Bool
  | .stopped => true
  | _ => false

/-- The number of workers currently evaluating a candidate. -/
def busyCount (ws : List WStatus) : Nat :=
  ws.countP isBusy

/-- Modelled from the spec: the shared state of a crack run — the
shared ordered candidate queue, the worker pool, the write-once
found/cancellation cell, and the total count of completed oracle
evaluations. -/
structure SchedState where
  pending : List (List Char)
  workers : List WStatus
  found : Option (List Char)
  attempts : Nat
  deriving DecidableEq, Repr

/-- Modelled from the spec: one scheduling step of worker `w`.
An idle worker first observes the cancellation cell and stops if it is
set; otherwise it dequeues the next candidate (stopping if the queue is
empty).  A busy worker completes its single in-flight oracle
evaluation, bumps the attempt count, and — if the oracle confirmed and
no earlier match was recorded — records its candidate as the result
(the first confirmed match wins; a later match never overwrites it).
A stopped worker does nothing. -/
def stepWorker (oracle : List Char → Bool) (s : SchedState) (w : Nat) :
    SchedState :=
  match s.workers[w]? with
  | none => s
  | some .stopped => s
  | some (.busy c) =>
    { s with
      attempts := s.attempts + 1
      workers := s.workers.set w .idle
      found := if oracle c && s.found.isNone then some c else s.found }
  | some .idle =>
    if s.found.isSome then { s with workers := s.workers.set w .stopped }
    else
      match s.pending with
      | [] => { s with workers := s.workers.set w .stopped }
      | c :: rest =>
        { s with pending := rest, workers := s.workers.set w (.busy c) }

/-- Modelled from the spec: a crack run under a given interleaving — the
schedule lists which worker acts at each instant; any interleaving is a
legal execution of the worker pool. -/
def runSched (oracle : List Char → Bool) (s : SchedState)
    (schedule : List Nat) : SchedState :=
  schedule.foldl (stepWorker oracle) s

/-- Modelled from the spec: the initial state of a run — the full
candidate stream queued, `workerCount` idle workers, no match, no
attempts. -/
def initState (cands : List (List Char)) (workerCount : Nat) : SchedState :=
  ⟨cands, List.replicate workerCount .idle, none, 0⟩

/-- A run is complete when every worker has exited. -/
def allStopped (s : SchedState) : Bool :=
  s.workers.all isStoppedW

/-- Modelled from the spec: the outcome of a completed run — `Found`
with the recorded secret, or `Exhausted`. -/
inductive CrackOutcome where
  | found (secret : List Char)
  | exhausted
  deriving DecidableEq, Repr

/-- The outcome a completed run reports. -/
def outcomeOf (s : SchedState) : CrackOutcome :=
  match s.found with
  | some c => .found c
  | none => .exhausted

/-! ## The crack pipeline (modelled from §§4.1, 6 and 7 of the spec) -/

/-- Modelled from the spec: the fatal error taxonomy of a crack run. -/
inductive CrackError where
  | tokenFormatError
  | unsupportedAlgorithm
  | sourceError
  deriving DecidableEq, Repr

/-- Map a declared algorithm name to a supported HMAC variant. -/
def toAlgorithm (name : List Char) : Option Algorithm :=
  if name = "HS256".data then some .HS256
  else if name = "HS384".data then some .HS384
  else if name = "HS512".data then some .HS512
  else none

/-- Modelled from the spec: the Token Codec contract `decompose` — the
token must split on `.` into exactly three segments; each segment must
base64url-decode (the decoder is an external collaborator, passed in);
the header must yield an `alg` name (the JSON decoding likewise passed
in); the name must be a supported HMAC variant.  The signing input is
the byte-identical `header.payload` prefix. -/
def decompose (decodeB64 : List Char → Option (List Nat))
    (algName : List Nat → Option (List Char)) (t : List Char) :
    Except CrackError Token :=
  match t.splitOn '.' with
  | [h, p, sig] =>
    match decodeB64 h, decodeB64 p, decodeB64 sig with
    | some hbytes, some _, some sigBytes =>
      match algName hbytes with
      | some name =>
        match toAlgorithm name with
        | some alg =>
          .ok { signing_input := h ++ '.' :: p, algorithm := alg,
                signature := sigBytes }
        | none => .error .unsupportedAlgorithm
      | none => .error .tokenFormatError
    | _, _, _ => .error .tokenFormatError
  | _ => .error .tokenFormatError

/-- Modelled from the spec: the two crack modes; for the dictionary
mode the readable file content, or `none` when the wordlist cannot be
opened or read. -/
inductive CrackMode where
  | dict (wordlist : Option (List Char))
  | brute (chars : List Char) (max : Nat)

/-- Modelled from the spec: materialize the Candidate Source of a mode,
or fail with `SourceError` when the wordlist is unreadable. -/
def candidatesOf : CrackMode → Except CrackError (List (List Char))
  | .dict none => .error .sourceError
  | .dict (some content) => .ok (readLines content)
  | .brute chars max => .ok (bruteforceCandidates chars max)

/-- Modelled from the spec: the keyspace size a mode reports up front —
the wordlist candidate count, or the closed-form
`sum_{L=1..max} N ^ L`. -/
def keyspaceSize : CrackMode → Option Nat
  | .dict none => none
  | .dict (some content) => some (readLines content).length
  | .brute chars max => some (bruteKeyspace (dedupChars chars).length max)

instance : DecidableEq (Except CrackError CrackOutcome) := fun a b =>
  match a, b with
  | .error x, .error y =>
    if h : x = y then .isTrue (by rw [h]) else .isFalse (by simp [h])
  | .error _, .ok _ => .isFalse (by simp)
  | .ok _, .error _ => .isFalse (by simp)
  | .ok x, .ok y =>
    if h : x = y then .isTrue (by rw [h]) else .isFalse (by simp [h])

/-- The observable summary of one crack invocation: its result, how many
oracle evaluations were performed, and whether the Candidate Source was
ever invoked. -/
structure CrackReport where
  result : Except CrackError CrackOutcome
  oracleEvals : Nat
  sourceInvoked : Bool
  deriving DecidableEq, Repr

/-- Modelled from the spec: a full crack invocation — decompose the
token first (fail fast, before the Candidate Source is touched), then
materialize the Candidate Source, then run the scheduler under the
given interleaving. -/
def crackExecute (decodeB64 : List Char → Option (List Nat))
    (algName : List Nat → Option (List Char)) (hmac : HmacFn)
    (t : List Char) (mode : CrackMode) (workerCount : Nat)
    (schedule : List Nat) : CrackReport :=
  match decompose decodeB64 algName t with
  | .error e => ⟨.error e, 0, false⟩
  | .ok tok =>
    match candidatesOf mode with
    | .error e => ⟨.error e, 0, true⟩
    | .ok cands =>
      let final := runSched (oracleOf hmac tok) (initState cands workerCount)
        schedule
      ⟨.ok (outcomeOf final), final.attempts, true⟩

/-- The inductive invariant of a crack run over candidate list `cands`
with `W` workers: a recorded match is oracle-confirmed and comes from
the keyspace; a worker only stops once the queue is drained (or a match
is recorded); while no match is recorded, every oracle-satisfying
candidate is still queued or in flight; completed evaluations, queued
candidates and in-flight candidates account for the whole keyspace; all
queued and in-flight candidates come from the keyspace; and the worker
pool keeps its size. -/
def SchedInv (oracle : List Char → Bool) (cands : List (List Char))
    (W : Nat) (s : SchedState) : Prop :=
  (∀ c, s.found = some c → oracle c = true ∧ c ∈ cands) ∧
  (s.found = none → WStatus.stopped ∈ s.workers → s.pending = []) ∧
  (s.found = none → ∀ c, oracle c = true → c ∈ cands →
    (c ∈ s.pending ∨ ∃ i : Nat, s.workers[i]? = some (WStatus.busy c))) ∧
  (s.attempts + s.pending.length + busyCount s.workers = cands.length) ∧
  (∀ (i : Nat) (c : List Char),
    s.workers[i]? = some (WStatus.busy c) → c ∈ cands) ∧
  (∀ c ∈ s.pending, c ∈ cands) ∧
  s.workers.length = W

/-- A sample keyed-digest function used to exercise the oracle on
concrete runs: digest `[1]` exactly for the key `"s"`. -/
def sampleHmac : HmacFn :=
  fun _ k _ => if k = ['s'] then [1] else []

/-! ## Lemmas about the CLI helpers -/

theorem parse_key_value_nil : parse_key_value [] = none := rfl

theorem parse_key_value_cons (c : Char) (s : List Char) :
    parse_key_value (c :: s) =
      if c = '=' then some ([], s)
      else (parse_key_value s).map (fun p => (c :: p.1, p.2)) := by
  by_cases hc : c = '='
  · subst hc
    simp [parse_key_value, List.findIdx?_cons]
  · rw [if_neg hc]
    have hcb : (c == '=') = false := beq_eq_false_iff_ne.mpr hc
    unfold parse_key_value
    rw [List.findIdx?_cons, hcb]
    simp only [Bool.false_eq_true, if_false, List.findIdx?_succ]
    cases h : List.findIdx? (fun x => x == '=') s with
    | none => rfl
    | some p => simp [List.take_succ_cons]

/-- C9: `parse_key_value` fails exactly on inputs with no `=`, and
succeeds with the prefix before the first `=` and the whole suffix
after it. -/
theorem parse_key_value_spec (s : List Char) :
    (parse_key_value s = none ↔ '=' ∉ s) ∧
    (∀ k v, parse_key_value s = some (k, v) ↔
      s = k ++ '=' :: v ∧ '=' ∉ k) := by
  induction s with
  | nil =>
    refine ⟨by simp [parse_key_value_nil], fun k v => ?_⟩
    constructor
    · intro h
      simp [parse_key_value_nil] at h
    · rintro ⟨h, -⟩
      cases k <;> simp at h
  | cons c s ih =>
    rw [parse_key_value_cons]
    by_cases hc : c = '='
    · subst hc
      refine ⟨by simp, fun k v => ?_⟩
      rw [if_pos rfl]
      constructor
      · intro h
        obtain ⟨rfl, rfl⟩ := Prod.mk.injEq .. ▸ Option.some.inj h
        simp
      · rintro ⟨h, hk⟩
        cases k with
        | nil =>
          injection h with h1 h2
          rw [h2]
        | cons a k =>
          injection h with h1 h2
          rw [← h1] at hk
          simp at hk
    · rw [if_neg hc]
      refine ⟨?_, fun k v => ?_⟩
      · rw [Option.map_eq_none', ih.1, List.mem_cons]
        have : ¬ ('=' = c) := fun h => hc h.symm
        tauto
      · constructor
        · intro h
          obtain ⟨⟨k', v'⟩, hkv, hmap⟩ := Option.map_eq_some'.mp h
          obtain ⟨hs, hnk⟩ := (ih.2 k' v').mp hkv
          obtain ⟨rfl, rfl⟩ := Prod.mk.injEq .. ▸ hmap
          subst hs
          refine ⟨rfl, fun hmem => ?_⟩
          rcases List.mem_cons.mp hmem with h1 | h2
          · exact hc h1.symm
          · exact hnk h2
        · rintro ⟨h, hk⟩
          cases k with
          | nil =>
            injection h with h1 h2
            exact absurd h1 hc
          | cons a k =>
            injection h with h1 hs
            subst h1
            have hk' : '=' ∉ k := fun m => hk (List.mem_cons_of_mem _ m)
            rw [(ih.2 k v).mpr ⟨hs, hk'⟩]
            rfl

/-- C9 witness. -/
theorem parse_key_value_spec_witness :
    parse_key_value ('k' :: 'e' :: 'y' :: '=' :: 'v' :: '=' :: 'w' :: []) =
      some (['k', 'e', 'y'], ['v', '=', 'w']) :=
  ((parse_key_value_spec _).2 ['k', 'e', 'y'] ['v', '=', 'w']).mpr
    ⟨by decide, by decide⟩

/-- C10: `PrettyLogger::log` writes a line exactly for records at levels
`Error`, `Warn` and `Info`; `Debug` and `Trace` records produce no
output, even though the formatter has branches for them. -/
theorem logWrite_only_up_to_info (ts : List Char) (r : LogRecord) :
    ((logWrite ts r).isSome = true ↔
      (r.level = .error ∨ r.level = .warn ∨ r.level = .info)) ∧
    logWrite ts { level := .debug, args := r.args } = none ∧
    logWrite ts { level := .trace, args := r.args } = none := by
  refine ⟨?_, by simp [logWrite, enabled, levelValue], by
    simp [logWrite, enabled, levelValue]⟩
  obtain ⟨l, a⟩ := r
  cases l <;> simp [logWrite, enabled, levelValue]

/-- C7 counterexample: clap's `usize` parsing of the `crack`
subcommand's `concurrency` and `max` options accepts the string `"0"`
for both, yielding the value `0` — a zero value is not rejected. -/
theorem crack_zero_args_accepted : parseCrackNats ['0'] ['0'] = some (0, 0) := by
  decide

/-- C7 (amended): the crack interface's `concurrency` and `max` options
accept every decimal-digit string whose value fits in a 64-bit `usize`,
with no positivity requirement; in particular zero is accepted. -/
theorem crack_numeric_args_accept_any_usize :
    (∀ s : List Char, stripPlus s ≠ [] →
      (stripPlus s).all Char.isDigit = true →
      decimalValue (stripPlus s) < 2 ^ 64 →
      parseUsize s = some (decimalValue (stripPlus s))) ∧
    parseUsize ['0'] = some 0 := by
  refine ⟨fun s h1 h2 h3 => ?_, by decide⟩
  simp only [parseUsize, if_neg h1, h2, if_pos h3, if_true]

/-- C7 amended witness. -/
theorem crack_numeric_args_accept_any_usize_witness :
    parseUsize ['4', '2'] = some (decimalValue (stripPlus ['4', '2'])) :=
  crack_numeric_args_accept_any_usize.1 ['4', '2'] (by decide) (by decide)
    (by decide)

/-! ## Lemmas about the fixed-time comparison -/

theorem nat_or_eq_zero_iff (a b : Nat) : a ||| b = 0 ↔ a = 0 ∧ b = 0 := by
  constructor
  · intro h
    have hb : ∀ k, (a.testBit k || b.testBit k) = false := by
      intro k
      have := congrArg (fun n => Nat.testBit n k) h
      simpa [Nat.testBit_lor] using this
    constructor
    · apply Nat.eq_of_testBit_eq
      intro k
      simp only [Nat.zero_testBit]
      exact (Bool.or_eq_false_iff.mp (hb k)).1
    · apply Nat.eq_of_testBit_eq
      intro k
      simp only [Nat.zero_testBit]
      exact (Bool.or_eq_false_iff.mp (hb k)).2
  · rintro ⟨rfl, rfl⟩
    rfl

theorem ctFold_fst_eq_zero (l : List (Nat × Nat)) :
    ∀ x n, (l.foldl (fun acc p => (acc.1 ||| (p.1 ^^^ p.2), acc.2 + 1))
      (x, n)).1 = 0 ↔ x = 0 ∧ ∀ p ∈ l, p.1 = p.2 := by
  induction l with
  | nil => simp
  | cons q t ih =>
    intro x n
    rw [List.foldl_cons, ih]
    constructor
    · rintro ⟨hor, ht⟩
      obtain ⟨hx, hq⟩ := (nat_or_eq_zero_iff _ _).mp hor
      exact ⟨hx, fun p hp => by
        rcases List.mem_cons.mp hp with rfl | hp
        · exact Nat.xor_eq_zero.mp hq
        · exact ht p hp⟩
    · rintro ⟨hx, hall⟩
      refine ⟨?_, fun p hp => hall p (List.mem_cons_of_mem _ hp)⟩
      rw [hx, Nat.zero_or, Nat.xor_eq_zero]
      exact hall q (List.mem_cons_self _ _)

theorem ctFold_snd (l : List (Nat × Nat)) :
    ∀ x n, (l.foldl (fun acc p => (acc.1 ||| (p.1 ^^^ p.2), acc.2 + 1))
      (x, n)).2 = n + l.length := by
  induction l with
  | nil => simp
  | cons q t ih =>
    intro x n
    rw [List.foldl_cons, ih]
    simp
    omega

theorem zip_forall_eq (a : List Nat) :
    ∀ b : List Nat, a.length = b.length →
      ((∀ p ∈ a.zip b, p.1 = p.2) ↔ a = b) := by
  induction a with
  | nil =>
    intro b hb
    cases b with
    | nil => simp
    | cons y b => simp at hb
  | cons x a ih =>
    intro b hb
    cases b with
    | nil => simp at hb
    | cons y b =>
      simp only [List.length_cons, Nat.add_right_cancel_iff] at hb
      rw [List.zip_cons_cons]
      constructor
      · intro h
        have hxy : x = y := h (x, y) (List.mem_cons_self _ _)
        have : a = b :=
          (ih b hb).mp (fun p hp => h p (List.mem_cons_of_mem _ hp))
        rw [hxy, this]
      · rintro h p hp
        injection h with h1 h2
        rcases List.mem_cons.mp hp with rfl | hp
        · exact h1
        · exact ((ih b hb).mpr h2) p hp

theorem ctEqBytes_iff_eq (a b : List Nat) : ctEqBytes a b = true ↔ a = b := by
  rw [ctEqBytes, Bool.and_eq_true, beq_iff_eq, beq_iff_eq, ctFold,
    ctFold_fst_eq_zero]
  constructor
  · rintro ⟨hlen, -, hall⟩
    exact (zip_forall_eq a b hlen).mp hall
  · rintro rfl
    exact ⟨rfl, rfl, fun p hp => (zip_forall_eq a a rfl).mpr rfl p hp⟩

theorem ctSteps_eq_min (a b : List Nat) :
    ctSteps a b = min a.length b.length := by
  rw [ctSteps, ctFold, ctFold_snd, Nat.zero_add, List.length_zip]

/-- C8: the Signature Oracle's comparison is correct (`verify` holds
exactly when the computed digest equals the expected signature) and
fixed-time: the number of byte operations depends only on the two
lengths, never on where the first differing byte sits. -/
theorem verify_fixed_time_comparison :
    (∀ (hmac : HmacFn) (cand si : List Char) (alg : Algorithm)
      (sig : List Nat),
      verify hmac cand si alg sig = true ↔ hmac alg cand si = sig) ∧
    (∀ a b : List Nat, ctSteps a b = min a.length b.length) ∧
    (∀ a b a2 b2 : List Nat, a.length = a2.length → b.length = b2.length →
      ctSteps a b = ctSteps a2 b2) := by
  refine ⟨fun hmac cand si alg sig => ctEqBytes_iff_eq _ _, ctSteps_eq_min,
    fun a b a2 b2 h1 h2 => ?_⟩
  rw [ctSteps_eq_min, ctSteps_eq_min, h1, h2]

/-- C8 witness: the byte operation count on `[0]` vs `[1]` (differing in
byte 0) equals the count on `[5]` vs `[5]` (no differing byte). -/
theorem verify_fixed_time_comparison_witness :
    ctSteps [0] [1] = ctSteps [5] [5] :=
  verify_fixed_time_comparison.2.2 [0] [1] [5] [5] rfl rfl

/-! ## Lemmas about the dictionary Candidate Source -/

theorem splitOn_char_cons (x c : Char) (xs : List Char) :
    (x :: xs).splitOn c =
      if x = c then [] :: xs.splitOn c
      else (xs.splitOn c).modifyHead (x :: ·) := by
  show (x :: xs).splitOnP (· == c) = _
  rw [List.splitOnP_cons]
  by_cases h : x = c
  · rw [if_pos h, if_pos (by simp [h])]
    rfl
  · rw [if_neg h, if_neg (by simp [h])]
    rfl

theorem splitOn_char_ne_nil (c : Char) (xs : List Char) :
    xs.splitOn c ≠ [] :=
  List.splitOnP_ne_nil _ xs

theorem linesFmt_single (x : List Char) :
    linesFmt [x] = if x.isEmpty then [] else [x] := by
  simp only [linesFmt, List.dropLast_single, List.map_nil, List.getLastD_cons,
    List.getLastD_nil, List.nil_append, List.filter_cons, List.filter_nil]
  cases h : x.isEmpty <;> simp

theorem linesFmt_cons (x : List Char) (ps : List (List Char)) (h : ps ≠ []) :
    linesFmt (x :: ps) =
      (if (stripCR x).isEmpty then [] else [stripCR x]) ++ linesFmt ps := by
  cases ps with
  | nil => exact absurd rfl h
  | cons p ps' =>
    simp only [linesFmt, List.dropLast_cons₂, List.map_cons,
      List.getLastD_cons, List.cons_append, List.filter_cons]
    cases hx : (stripCR x).isEmpty <;> simp

theorem readLinesAux_spec (content : List Char) : ∀ acc : List Char,
    readLinesAux acc content =
      linesFmt ((content.splitOn '\n').modifyHead (acc.reverse ++ ·)) := by
  induction content with
  | nil =>
    intro acc
    rw [List.splitOn_nil, List.modifyHead_cons, List.append_nil,
      linesFmt_single]
    show (if acc.isEmpty then [] else [acc.reverse]) = _
    cases acc <;> simp
  | cons c rest ih =>
    intro acc
    show (if c = '\n' then
        (if (stripCR acc.reverse).isEmpty then readLinesAux [] rest
         else stripCR acc.reverse :: readLinesAux [] rest)
      else readLinesAux (c :: acc) rest) = _
    by_cases hc : c = '\n'
    · subst hc
      rw [if_pos rfl, splitOn_char_cons, if_pos rfl, List.modifyHead_cons,
        List.append_nil,
        linesFmt_cons _ _ (splitOn_char_ne_nil '\n' rest), ih []]

      have hid : (rest.splitOn '\n').modifyHead
          ((List.reverse []) ++ ·) = rest.splitOn '\n' := by
        cases h : rest.splitOn '\n' with
        | nil => rfl
        | cons p ps => rw [List.modifyHead_cons]; rfl
      rw [hid]
      cases hemp : (stripCR acc.reverse).isEmpty <;> simp
    · rw [if_neg hc, splitOn_char_cons, if_neg hc, ih (c :: acc)]
      congr 1
      cases h : rest.splitOn '\n' with
      | nil => rfl
      | cons p ps =>
        rw [List.modifyHead_cons, List.modifyHead_cons, List.modifyHead_cons]
        simp

/-- C4: the dictionary Candidate Source yields exactly the declarative
line list of the file — one candidate per non-empty line, in file order,
trailing terminators stripped, empty lines skipped — and every candidate
it yields is such a line. -/
theorem dictionary_source_lines (content : List Char) :
    readLines content = linesSpec content ∧
    ∀ w ∈ readLines content, w ≠ [] ∧
      w ∈ (content.splitOn '\n').dropLast.map stripCR ++
        [(content.splitOn '\n').getLastD []] := by
  have hmain : readLines content = linesSpec content := by
    rw [readLines, readLinesAux_spec content [], linesSpec]
    congr 1
    cases h : content.splitOn '\n' with
    | nil => rfl
    | cons p ps => rw [List.modifyHead_cons]; rfl
  refine ⟨hmain, fun w hw => ?_⟩
  rw [hmain, linesSpec, linesFmt] at hw
  obtain ⟨hmem, hne⟩ := List.mem_filter.mp hw
  refine ⟨fun h => by simp [h] at hne, hmem⟩

/-- C4 witness: on the file `"a\nb"` the candidate `"a"` is a non-empty
line of the file. -/
theorem dictionary_source_lines_witness :
    (['a'] : List Char) ≠ [] ∧
      ['a'] ∈ (('a' :: '\n' :: 'b' :: []).splitOn '\n').dropLast.map stripCR
        ++ [(('a' :: '\n' :: 'b' :: []).splitOn '\n').getLastD []] :=
  (dictionary_source_lines ('a' :: '\n' :: 'b' :: [])).2 ['a'] (by decide)

/-! ## Lemmas about the brute-force Candidate Source -/

theorem digLE_length (N L v : Nat) : (digLE N L v).length = L := by
  induction L generalizing v with
  | zero => rfl
  | succ L ih => simp [digLE, ih]

theorem digLE_zero (N L : Nat) : digLE N L 0 = List.replicate L 0 := by
  induction L with
  | zero => rfl
  | succ L ih => simp [digLE, List.replicate_succ, Nat.zero_mod,
      Nat.zero_div, ih]

theorem incLE_digLE (N L : Nat) : ∀ v, v + 1 < N ^ L →
    incLE N (digLE N L v) = some (digLE N L (v + 1)) := by
  induction L with
  | zero =>
    intro v h
    simp at h
  | succ L ih =>
    intro v h
    have hN : 0 < N := by
      rcases Nat.eq_zero_or_pos N with rfl | h'
      · rw [zero_pow (Nat.succ_ne_zero L)] at h
        omega
      · exact h'
    have hvN : v % N < N := Nat.mod_lt _ hN
    rw [digLE]
    by_cases hlt : v % N + 1 < N
    · rw [incLE, if_pos hlt]
      have hd : v + 1 = (v % N + 1) + N * (v / N) := by
        have := Nat.div_add_mod v N
        omega
      have hmod : (v + 1) % N = v % N + 1 := by
        rw [hd, Nat.add_mul_mod_self_left, Nat.mod_eq_of_lt hlt]
      have hdiv : (v + 1) / N = v / N := by
        rw [hd, Nat.add_mul_div_left _ _ hN, Nat.div_eq_of_lt hlt,
          Nat.zero_add]
      rw [digLE, hmod, hdiv]
    · have hem : v % N + 1 = N := by omega
      rw [incLE, if_neg hlt]
      have hd : v + 1 = N * (v / N + 1) := by
        have h1 : N * (v / N + 1) = N * (v / N) + N := by ring
        have h2 := Nat.div_add_mod v N
        omega
      have hdivlt : v / N + 1 < N ^ L := by
        have hpow : N * (v / N + 1) < N * N ^ L := by
          rw [← hd, ← pow_succ']
          exact h
        exact Nat.lt_of_mul_lt_mul_left hpow
      rw [ih (v / N) hdivlt]
      have hmod : (v + 1) % N = 0 := by
        rw [hd]
        exact Nat.mul_mod_right _ _
      have hdiv : (v + 1) / N = v / N + 1 := by
        rw [hd]
        exact Nat.mul_div_cancel_left _ hN
      show some (0 :: digLE N L (v / N + 1)) = some (digLE N (L + 1) (v + 1))
      simp only [digLE]
      rw [hmod, hdiv]

theorem incLE_digLE_last (N L : Nat) :
    incLE N (digLE N L (N ^ L - 1)) = none := by
  induction L with
  | zero => rfl
  | succ L ih =>
    rcases Nat.eq_zero_or_pos N with rfl | hN
    · have hz : ∀ M : Nat, (0 : Nat) ^ M - 1 = 0 := by
        intro M
        cases M with
        | zero => rfl
        | succ m =>
          rw [zero_pow (Nat.succ_ne_zero m)]
          rfl
      rw [hz]
      show incLE 0 (0 % 0 :: digLE 0 L (0 / 0)) = none
      rw [Nat.zero_mod, Nat.zero_div]
      have ih' : incLE 0 (digLE 0 L 0) = none := by
        have h0 := ih
        rwa [hz L] at h0
      rw [incLE, if_neg (by omega : ¬ (0 + 1 < 0)), ih']
      rfl
    · obtain ⟨m, hm⟩ : ∃ m, N ^ L = m + 1 :=
        ⟨N ^ L - 1, by have := pow_pos hN L; omega⟩
      have hval : N ^ (L + 1) - 1 = (N - 1) + N * m := by
        rw [pow_succ', hm]
        have h1 : N * (m + 1) = N * m + N := by ring
        omega
      have hmod : (N ^ (L + 1) - 1) % N = N - 1 := by
        rw [hval, Nat.add_mul_mod_self_left, Nat.mod_eq_of_lt (by omega)]
      have hdiv : (N ^ (L + 1) - 1) / N = m := by
        rw [hval, Nat.add_mul_div_left _ _ hN, Nat.div_eq_of_lt (by omega),
          Nat.zero_add]
      rw [digLE, hmod, hdiv, incLE]
      have : ¬ (N - 1 + 1 < N) := by omega
      rw [if_neg this]
      have hm' : m = N ^ L - 1 := by omega
      rw [hm', ih]
      rfl

theorem iterCounter_eq (N L : Nat) : ∀ fuel v, v + fuel ≤ N ^ L →
    iterCounter N fuel (digLE N L v) =
      (List.range fuel).map (fun i => digLE N L (v + i)) := by
  intro fuel
  induction fuel with
  | zero => intro v h; rfl
  | succ f ihf =>
    intro v h
    cases f with
    | zero =>
      rw [iterCounter]
      cases hinc : incLE N (digLE N L v) <;>
        simp [iterCounter, List.range_succ, hinc]
    | succ f' =>
      have hv1 : v + 1 < N ^ L := by omega
      rw [iterCounter, incLE_digLE N L v hv1]
      show digLE N L v :: iterCounter N (f' + 1) (digLE N L (v + 1)) = _
      rw [ihf (v + 1) (by omega)]
      conv_rhs => rw [List.range_succ_eq_map]
      rw [List.map_cons, List.map_map]
      have htail : List.map (fun i => digLE N L (v + 1 + i))
          (List.range (f' + 1)) =
          List.map ((fun i => digLE N L (v + i)) ∘ Nat.succ)
            (List.range (f' + 1)) := by
        apply List.map_congr_left
        intro i _
        show digLE N L (v + 1 + i) = digLE N L (v + Nat.succ i)
        congr 1
        omega
      rw [htail]
      simp

theorem counterSeq_eq (N L : Nat) :
    counterSeq N L = (List.range (N ^ L)).map (digLE N L) := by
  rw [counterSeq, ← digLE_zero, iterCounter_eq N L (N ^ L) 0 (by omega)]
  apply List.map_congr_left
  intro i _
  rw [Nat.zero_add]

theorem baseNString_length (A : List Char) (L : Nat) : ∀ v,
    (baseNString A L v).length = L := by
  induction L with
  | zero => intro v; rfl
  | succ L ih => intro v; simp [baseNString, ih]

theorem baseNString_last (A : List Char) (L : Nat) : ∀ v,
    v < A.length ^ (L + 1) →
    baseNString A (L + 1) v =
      baseNString A L (v / A.length) ++
        [A.getD (v % A.length) ' '] := by
  induction L with
  | zero =>
    intro v h
    rw [pow_one] at h
    show [A.getD (v / A.length ^ 0) ' '] = _
    rw [pow_zero, Nat.div_one, Nat.mod_eq_of_lt h]
    rfl
  | succ L ih =>
    intro v h
    have hN : 0 < A.length := by
      rcases Nat.eq_zero_or_pos A.length with hz | h'
      · rw [hz, zero_pow (Nat.succ_ne_zero _)] at h
        omega
      · exact h'
    have hpow : 0 < A.length ^ (L + 1) := pow_pos hN _
    have hmodlt : v % A.length ^ (L + 1) < A.length ^ (L + 1) :=
      Nat.mod_lt _ hpow
    show A.getD (v / A.length ^ (L + 1)) ' ' ::
        baseNString A (L + 1) (v % A.length ^ (L + 1)) = _
    rw [ih _ hmodlt]
    show _ = A.getD (v / A.length / A.length ^ L) ' ' ::
      (baseNString A L (v / A.length % A.length ^ L) ++ _)
    rw [Nat.div_div_eq_div_mul, ← pow_succ']
    have h2 : v % A.length ^ (L + 1) / A.length = v / A.length % A.length ^ L := by
      rw [pow_succ']
      exact Nat.mod_mul_right_div_self ..
    have h3 : v % A.length ^ (L + 1) % A.length = v % A.length :=
      Nat.mod_mod_of_dvd _ (dvd_pow_self _ (Nat.succ_ne_zero L))
    rw [h2, h3]

theorem renderCounter_digLE (A : List Char) (L : Nat) : ∀ v,
    v < A.length ^ L →
    renderCounter A (digLE A.length L v) = baseNString A L v := by
  induction L with
  | zero => intro v h; rfl
  | succ L ih =>
    intro v h
    have hN : 0 < A.length := by
      rcases Nat.eq_zero_or_pos A.length with hz | h'
      · rw [hz, zero_pow (Nat.succ_ne_zero _)] at h
        omega
      · exact h'
    have hdivlt : v / A.length < A.length ^ L := by
      rw [Nat.div_lt_iff_lt_mul hN, ← pow_succ]
      exact h
    rw [digLE, renderCounter, List.reverse_cons, List.map_append]
    show (renderCounter A (digLE A.length L (v / A.length))) ++ _ = _
    rw [ih _ hdivlt, baseNString_last A L v h]
    rfl

theorem stringsOfLength_eq (A : List Char) (L : Nat) :
    stringsOfLength A L =
      (List.range (A.length ^ L)).map (baseNString A L) := by
  rw [stringsOfLength, counterSeq_eq, List.map_map]
  apply List.map_congr_left
  intro v hv
  exact renderCounter_digLE A L v (List.mem_range.mp hv)

theorem dedupAux_mem (l : List Char) : ∀ (seen : List Char) (a : Char),
    a ∈ dedupAux seen l ↔ a ∈ l ∧ a ∉ seen := by
  induction l with
  | nil => intro seen a; simp [dedupAux]
  | cons c cs ih =>
    intro seen a
    rw [dedupAux]
    by_cases hc : c ∈ seen
    · rw [if_pos hc, ih seen a, List.mem_cons]
      by_cases hac : a = c
      · subst hac
        simp [hc]
      · simp [hac]
    · rw [if_neg hc, List.mem_cons, ih (c :: seen) a, List.mem_cons,
        List.mem_cons]
      by_cases hac : a = c
      · subst hac
        simp [hc]
      · simp [hac]

theorem dedupChars_mem (l : List Char) (a : Char) :
    a ∈ dedupChars l ↔ a ∈ l := by
  rw [dedupChars, dedupAux_mem]
  simp

theorem baseNString_mem_alphabet (A : List Char) (L : Nat) : ∀ v,
    v < A.length ^ L → ∀ c ∈ baseNString A L v, c ∈ A := by
  induction L with
  | zero => intro v _ c hc; simp [baseNString] at hc
  | succ L ih =>
    intro v h c hc
    have hN : 0 < A.length := by
      rcases Nat.eq_zero_or_pos A.length with hz | h'
      · rw [hz, zero_pow (Nat.succ_ne_zero _)] at h
        omega
      · exact h'
    have hpow : 0 < A.length ^ L := pow_pos hN _
    rcases List.mem_cons.mp hc with rfl | htl
    · have hidx : v / A.length ^ L < A.length := by
        rw [Nat.div_lt_iff_lt_mul hpow, ← pow_succ']
        exact h
      rw [List.getD_eq_getElem A ' ' hidx]
      exact List.getElem_mem _
    · exact ih (v % A.length ^ L) (Nat.mod_lt _ hpow) c htl

theorem baseNString_surj (A : List Char) : ∀ (s : List Char),
    (∀ c ∈ s, c ∈ A) →
    ∃ v, v < A.length ^ s.length ∧ baseNString A s.length v = s := by
  intro s
  induction s with
  | nil => intro _; exact ⟨0, by simp, rfl⟩
  | cons c s ih =>
    intro h
    obtain ⟨v', hv', hs'⟩ := ih (fun d hd => h d (List.mem_cons_of_mem _ hd))
    have hcA : c ∈ A := h c (List.mem_cons_self _ _)
    have hidx : A.indexOf c < A.length := List.indexOf_lt_length.mpr hcA
    have hN : 0 < A.length := Nat.lt_of_le_of_lt (Nat.zero_le _) hidx
    have hM : 0 < A.length ^ s.length := pow_pos hN _
    refine ⟨A.length ^ s.length * A.indexOf c + v', ?_, ?_⟩
    · calc A.length ^ s.length * A.indexOf c + v'
          < A.length ^ s.length * A.indexOf c + A.length ^ s.length := by
            omega
        _ = A.length ^ s.length * (A.indexOf c + 1) := by ring
        _ ≤ A.length ^ s.length * A.length := by
            exact Nat.mul_le_mul_left _ (by omega)
        _ = A.length ^ (s.length + 1) := (pow_succ _ _).symm
    · show A.getD (_ / A.length ^ s.length) ' ' ::
        baseNString A s.length (_ % A.length ^ s.length) = c :: s
      have hdiv : (A.length ^ s.length * A.indexOf c + v') /
          A.length ^ s.length = A.indexOf c := by
        rw [Nat.mul_add_div hM, Nat.div_eq_of_lt hv', Nat.add_zero]
      have hmod : (A.length ^ s.length * A.indexOf c + v') %
          A.length ^ s.length = v' := by
        rw [Nat.mul_add_mod, Nat.mod_eq_of_lt hv']
      rw [hdiv, hmod, hs', List.getD_eq_getElem A ' ' hidx,
        List.getElem_indexOf hidx]

theorem bruteforceCandidates_eq (chars : List Char) (max : Nat) :
    bruteforceCandidates chars max =
      (List.range max).flatMap (fun i =>
        (List.range ((dedupChars chars).length ^ (i + 1))).map
          (baseNString (dedupChars chars) (i + 1))) := by
  rw [bruteforceCandidates]
  congr 1
  funext i
  exact stringsOfLength_eq _ _

theorem bruteforceCandidates_length (chars : List Char) (max : Nat) :
    (bruteforceCandidates chars max).length =
      bruteKeyspace (dedupChars chars).length max := by
  rw [bruteforceCandidates_eq, List.length_flatMap]
  induction max with
  | zero => rfl
  | succ m ih =>
    rw [List.range_succ, List.map_append, List.sum_append, ih]
    simp [bruteKeyspace]

theorem bruteforceCandidates_mem (chars : List Char) (max : Nat)
    (s : List Char) :
    s ∈ bruteforceCandidates chars max ↔
      1 ≤ s.length ∧ s.length ≤ max ∧ ∀ c ∈ s, c ∈ chars := by
  rw [bruteforceCandidates_eq, List.mem_flatMap]
  constructor
  · rintro ⟨i, hi, hs⟩
    obtain ⟨v, hv, rfl⟩ := List.mem_map.mp hs
    have hvlt := List.mem_range.mp hv
    have hilt := List.mem_range.mp hi
    rw [baseNString_length]
    refine ⟨by omega, by omega, fun c hc => ?_⟩
    exact (dedupChars_mem chars c).mp
      (baseNString_mem_alphabet _ _ _ hvlt c hc)
  · rintro ⟨h1, h2, h3⟩
    obtain ⟨v, hv, hs⟩ := baseNString_surj (dedupChars chars) s
      (fun c hc => (dedupChars_mem chars c).mpr (h3 c hc))
    obtain ⟨L, hL⟩ : ∃ L, s.length = L + 1 := ⟨s.length - 1, by omega⟩
    refine ⟨L, List.mem_range.mpr (by omega), List.mem_map.mpr
      ⟨v, List.mem_range.mpr (by rw [← hL]; exact hv), ?_⟩⟩
    rw [← hL]
    exact hs

/-- C2: the brute-force Candidate Source enumerates, per length `L` from
1 to `max` in increasing order, exactly the base-`N` numerals of
`0, 1, …, N^L - 1` over the (deduplicated) alphabet with the first
alphabet character as digit 0; membership is exactly the strings over
the alphabet of lengths 1 through `max`; and on alphabet `"ab"` with
`max = 2` the sequence is exactly `a, b, aa, ab, ba, bb`. -/
theorem bruteforce_enumeration (chars : List Char) (max : Nat) :
    (bruteforceCandidates chars max =
      (List.range max).flatMap (fun i =>
        (List.range ((dedupChars chars).length ^ (i + 1))).map
          (baseNString (dedupChars chars) (i + 1)))) ∧
    (∀ s : List Char, s ∈ bruteforceCandidates chars max ↔
      1 ≤ s.length ∧ s.length ≤ max ∧ ∀ c ∈ s, c ∈ chars) ∧
    bruteforceCandidates ('a' :: 'b' :: []) 2 =
      [['a'], ['b'], ['a', 'a'], ['a', 'b'], ['b', 'a'], ['b', 'b']] :=
  ⟨bruteforceCandidates_eq chars max, bruteforceCandidates_mem chars max,
    by decide⟩

/-! ## Lemmas about the Crack Scheduler -/

theorem runSched_invariant (oracle : List Char → Bool)
    (P : SchedState → Prop)
    (hstep : ∀ s w, P s → P (stepWorker oracle s w)) :
    ∀ (sched : List Nat) (s : SchedState), P s →
      P (runSched oracle s sched) := by
  intro sched
  induction sched with
  | nil => intro s h; exact h
  | cons w ws ih =>
    intro s h
    exact ih _ (hstep s w h)

theorem isBusy_busy (c : List Char) : isBusy (WStatus.busy c) = true := rfl

theorem isBusy_idle : isBusy WStatus.idle = false := rfl

theorem isBusy_stopped : isBusy WStatus.stopped = false := rfl

theorem countP_set_eq (p : WStatus → Bool) :
    ∀ (l : List WStatus) (i : Nat) (a b : WStatus), l[i]? = some a →
      (l.set i b).countP p + (if p a = true then 1 else 0) =
        l.countP p + (if p b = true then 1 else 0) := by
  intro l
  induction l with
  | nil => intro i a b h; simp at h
  | cons x t ih =>
    intro i a b h
    cases i with
    | zero =>
      rw [List.getElem?_cons_zero] at h
      injection h with hxa
      subst hxa
      rw [List.set_cons_zero, List.countP_cons, List.countP_cons]
      omega
    | succ n =>
      rw [List.getElem?_cons_succ] at h
      rw [List.set_cons_succ, List.countP_cons, List.countP_cons]
      have := ih n a b h
      omega

theorem stepWorker_inv (oracle : List Char → Bool)
    (cands : List (List Char)) (W : Nat) (s : SchedState) (w : Nat)
    (hinv : SchedInv oracle cands W s) :
    SchedInv oracle cands W (stepWorker oracle s w) := by
  obtain ⟨h1, h2, h3, h4, h5, h6, h7⟩ := hinv
  unfold stepWorker
  split
  · exact ⟨h1, h2, h3, h4, h5, h6, h7⟩
  · exact ⟨h1, h2, h3, h4, h5, h6, h7⟩
  · -- a busy worker completes its evaluation
    rename_i c hw
    obtain ⟨hwlt, hget⟩ := List.getElem?_eq_some.mp hw
    have hcc : c ∈ cands := h5 w c hw
    have hcount := countP_set_eq isBusy s.workers w (WStatus.busy c)
      WStatus.idle hw
    rw [isBusy_busy, isBusy_idle] at hcount
    simp at hcount
    refine ⟨?_, ?_, ?_, ?_, ?_, ?_, ?_⟩ <;> dsimp only
    · intro c' hc'
      by_cases hcond : (oracle c && s.found.isNone) = true
      · rw [if_pos hcond] at hc'
        injection hc' with hc''
        subst hc''
        rw [Bool.and_eq_true] at hcond
        exact ⟨hcond.1, hcc⟩
      · rw [if_neg hcond] at hc'
        exact h1 c' hc'
    · intro hf hstop
      by_cases hcond : (oracle c && s.found.isNone) = true
      · rw [if_pos hcond] at hf
        exact absurd hf (by simp)
      · rw [if_neg hcond] at hf
        rcases List.mem_or_eq_of_mem_set hstop with hmem | habs
        · exact h2 hf hmem
        · exact absurd habs (by simp)
    · intro hf c' ho' hc'
      by_cases hcond : (oracle c && s.found.isNone) = true
      · rw [if_pos hcond] at hf
        exact absurd hf (by simp)
      · rw [if_neg hcond] at hf
        have hoc : oracle c = false := by
          cases ho : oracle c
          · rfl
          · exact absurd (by rw [ho, hf]; rfl) hcond
        rcases h3 hf c' ho' hc' with hp | ⟨i, hi⟩
        · exact Or.inl hp
        · right
          have hne : w ≠ i := by
            rintro rfl
            rw [hw] at hi
            injection hi with hbc
            injection hbc with hcs
            rw [← hcs] at ho'
            rw [hoc] at ho'
            exact Bool.false_ne_true ho'
          exact ⟨i, by rw [List.getElem?_set_ne hne]; exact hi⟩
    · rw [busyCount] at h4 ⊢
      omega
    · intro i c' hci
      by_cases hiw : i = w
      · subst hiw
        rw [List.getElem?_set_self hwlt] at hci
        injection hci with h'
        exact absurd h' (by simp)
      · rw [List.getElem?_set_ne (Ne.symm hiw)] at hci
        exact h5 i c' hci
    · exact h6
    · rw [List.length_set]
      exact h7
  · -- an idle worker observes cancellation, dequeues, or stops
    rename_i hw
    obtain ⟨hwlt, hget⟩ := List.getElem?_eq_some.mp hw
    by_cases hf : s.found.isSome = true
    · rw [if_pos hf]
      have hcount := countP_set_eq isBusy s.workers w WStatus.idle
        WStatus.stopped hw
      rw [isBusy_idle, isBusy_stopped] at hcount
      simp at hcount
      refine ⟨?_, ?_, ?_, ?_, ?_, ?_, ?_⟩ <;> dsimp only
      · exact h1
      · intro hf' _
        rw [hf'] at hf
        simp at hf
      · intro hf' c' _ _
        rw [hf'] at hf
        simp at hf
      · rw [busyCount] at h4 ⊢
        omega
      · intro i c' hci
        by_cases hiw : i = w
        · subst hiw
          rw [List.getElem?_set_self hwlt] at hci
          injection hci with h'
          exact absurd h' (by simp)
        · rw [List.getElem?_set_ne (Ne.symm hiw)] at hci
          exact h5 i c' hci
      · exact h6
      · rw [List.length_set]
        exact h7
    · rw [if_neg hf]
      have hfn : s.found = none := by
        cases hfound : s.found with
        | none => rfl
        | some c => rw [hfound] at hf; simp at hf
      cases hp : s.pending with
      | nil =>
        have hcount := countP_set_eq isBusy s.workers w WStatus.idle
          WStatus.stopped hw
        rw [isBusy_idle, isBusy_stopped] at hcount
        simp at hcount
        refine ⟨?_, ?_, ?_, ?_, ?_, ?_, ?_⟩ <;> dsimp only
        · exact h1
        · intro _ _
          rfl
        · intro hf' c' ho' hc'
          rcases h3 hfn c' ho' hc' with hp' | ⟨i, hi⟩
          · rw [hp] at hp'
            exact absurd hp' (by simp)
          · have hne : w ≠ i := by
              rintro rfl
              rw [hw] at hi
              injection hi with h'
              exact absurd h' (by simp)
            exact Or.inr ⟨i, by rw [List.getElem?_set_ne hne]; exact hi⟩
        · rw [hp] at h4
          rw [busyCount] at h4 ⊢
          simp only [List.length_nil] at h4 ⊢
          omega
        · intro i c' hci
          by_cases hiw : i = w
          · subst hiw
            rw [List.getElem?_set_self hwlt] at hci
            injection hci with h'
            exact absurd h' (by simp)
          · rw [List.getElem?_set_ne (Ne.symm hiw)] at hci
            exact h5 i c' hci
        · intro c hc
          exact absurd hc (by simp)
        · rw [List.length_set]
          exact h7
      | cons c1 rest =>
        have hc1 : c1 ∈ cands := by
          apply h6
          rw [hp]
          exact List.mem_cons_self _ _
        have hcount := countP_set_eq isBusy s.workers w WStatus.idle
          (WStatus.busy c1) hw
        rw [isBusy_idle, isBusy_busy] at hcount
        simp at hcount
        refine ⟨?_, ?_, ?_, ?_, ?_, ?_, ?_⟩ <;> dsimp only
        · exact h1
        · intro hf' hstop
          rcases List.mem_or_eq_of_mem_set hstop with hmem | habs
          · have hcontra := h2 hfn hmem
            rw [hp] at hcontra
            exact absurd hcontra (by simp)
          · exact absurd habs (by simp)
        · intro hf' c' ho' hc'
          rcases h3 hfn c' ho' hc' with hp' | ⟨i, hi⟩
          · rw [hp] at hp'
            rcases List.mem_cons.mp hp' with rfl | hr
            · exact Or.inr ⟨w, by rw [List.getElem?_set_self hwlt]⟩
            · exact Or.inl hr
          · have hne : w ≠ i := by
              rintro rfl
              rw [hw] at hi
              injection hi with h'
              exact absurd h' (by simp)
            exact Or.inr ⟨i, by rw [List.getElem?_set_ne hne]; exact hi⟩
        · rw [hp] at h4
          rw [busyCount] at h4 ⊢
          simp only [List.length_cons] at h4
          omega
        · intro i c' hci
          by_cases hiw : i = w
          · subst hiw
            rw [List.getElem?_set_self hwlt] at hci
            injection hci with h'
            injection h' with h''
            rw [← h'']
            exact hc1
          · rw [List.getElem?_set_ne (Ne.symm hiw)] at hci
            exact h5 i c' hci
        · intro c hc
          apply h6
          rw [hp]
          exact List.mem_cons_of_mem _ hc
        · rw [List.length_set]
          exact h7

theorem busyCount_replicate_idle (W : Nat) :
    busyCount (List.replicate W .idle) = 0 := by
  induction W with
  | zero => rfl
  | succ n ih =>
    rw [List.replicate_succ, busyCount, List.countP_cons]
    rw [busyCount] at ih
    rw [ih, isBusy_idle]
    rfl

theorem initState_inv (oracle : List Char → Bool)
    (cands : List (List Char)) (W : Nat) :
    SchedInv oracle cands W (initState cands W) := by
  refine ⟨?_, ?_, ?_, ?_, ?_, ?_, ?_⟩ <;> dsimp only [initState]
  · intro c h
    simp at h
  · intro _ hstop
    have habs := List.eq_of_mem_replicate hstop
    exact absurd habs (by simp)
  · intro _ c _ hc
    exact Or.inl hc
  · rw [busyCount_replicate_idle]
    omega
  · intro i c h
    rw [List.getElem?_replicate] at h
    split at h
    · injection h with h'
      exact absurd h' (by simp)
    · exact absurd h (by simp)
  · intro c hc
    exact hc
  · exact List.length_replicate _ _

theorem runSched_inv (oracle : List Char → Bool)
    (cands : List (List Char)) (W : Nat) (sched : List Nat) :
    SchedInv oracle cands W
      (runSched oracle (initState cands W) sched) :=
  runSched_invariant oracle (SchedInv oracle cands W)
    (fun s w h => stepWorker_inv oracle cands W s w h) sched _
    (initState_inv oracle cands W)

theorem allStopped_busyCount (s : SchedState)
    (h : allStopped s = true) : busyCount s.workers = 0 := by
  rw [busyCount, List.countP_eq_zero]
  intro a ha
  have hst := (List.all_eq_true.mp h) a ha
  cases a with
  | idle => simp [isStoppedW] at hst
  | busy c => simp [isStoppedW] at hst
  | stopped => simp [isBusy]

theorem allStopped_no_busy (s : SchedState) (h : allStopped s = true) :
    ∀ (i : Nat) (c : List Char),
      s.workers[i]? ≠ some (WStatus.busy c) := by
  intro i c hci
  have hm := List.getElem?_mem hci
  have hst := (List.all_eq_true.mp h) _ hm
  simp [isStoppedW] at hst

theorem run_complete_none (oracle : List Char → Bool)
    (cands : List (List Char)) (W : Nat) (sched : List Nat)
    (hW : 0 < W)
    (hstop : allStopped (runSched oracle (initState cands W) sched) = true)
    (hnone : (runSched oracle (initState cands W) sched).found = none) :
    (runSched oracle (initState cands W) sched).attempts = cands.length ∧
      ∀ c ∈ cands, oracle c = false := by
  obtain ⟨h1, h2, h3, h4, h5, h6, h7⟩ := runSched_inv oracle cands W sched
  have hne : (runSched oracle (initState cands W) sched).workers ≠ [] := by
    intro habs
    rw [habs] at h7
    simp at h7
    omega
  have hsmem : WStatus.stopped ∈
      (runSched oracle (initState cands W) sched).workers := by
    cases hws : (runSched oracle (initState cands W) sched).workers with
    | nil => exact absurd hws hne
    | cons a l =>
      have ha : isStoppedW a = true := by
        apply List.all_eq_true.mp hstop
        rw [hws]
        exact List.mem_cons_self _ _
      cases a with
      | stopped => exact List.mem_cons_self _ _
      | idle => simp [isStoppedW] at ha
      | busy c => simp [isStoppedW] at ha
  have hpend : (runSched oracle (initState cands W) sched).pending = [] :=
    h2 hnone hsmem
  constructor
  · have hbc := allStopped_busyCount _ hstop
    rw [hpend] at h4
    simp only [List.length_nil] at h4
    omega
  · intro c hc
    cases ho : oracle c with
    | false => rfl
    | true =>
      rcases h3 hnone c ho hc with hpm | ⟨i, hi⟩
      · rw [hpend] at hpm
        exact absurd hpm (by simp)
      · exact absurd hi (allStopped_no_busy _ hstop i c)

theorem run_found_iff (oracle : List Char → Bool)
    (cands : List (List Char)) (W : Nat) (sched : List Nat)
    (hW : 0 < W)
    (hstop : allStopped (runSched oracle (initState cands W) sched) = true) :
    (runSched oracle (initState cands W) sched).found.isSome = true ↔
      ∃ c ∈ cands, oracle c = true := by
  constructor
  · intro h
    obtain ⟨h1, h2, h3, h4, h5, h6, h7⟩ := runSched_inv oracle cands W sched
    cases hfound : (runSched oracle (initState cands W) sched).found with
    | none => rw [hfound] at h; simp at h
    | some c =>
      obtain ⟨ho, hm⟩ := h1 c hfound
      exact ⟨c, hm, ho⟩
  · rintro ⟨c, hm, ho⟩
    cases hfound : (runSched oracle (initState cands W) sched).found with
    | some c' => simp
    | none =>
      have hall := (run_complete_none oracle cands W sched hW hstop
        hfound).2
      rw [hall c hm] at ho
      exact absurd ho (by simp)

/-- C1: a crack run reports `Found c` only when the Signature Oracle,
applied to `c` with the original Token's signing input, algorithm and
expected signature, returns `true` — on every run, under every
interleaving, with no other code path to `Found`. -/
theorem crack_found_only_if_verified (hmac : HmacFn) (tok : Token)
    (cands : List (List Char)) (W : Nat) (sched : List Nat)
    (c : List Char)
    (h : outcomeOf (runSched (oracleOf hmac tok) (initState cands W)
      sched) = CrackOutcome.found c) :
    verify hmac c tok.signing_input tok.algorithm tok.signature = true := by
  obtain ⟨h1, h2, h3, h4, h5, h6, h7⟩ :=
    runSched_inv (oracleOf hmac tok) cands W sched
  cases hfound : (runSched (oracleOf hmac tok) (initState cands W)
      sched).found with
  | none =>
    rw [outcomeOf, hfound] at h
    exact absurd h (by simp)
  | some c' =>
    rw [outcomeOf, hfound] at h
    injection h with hc
    subst hc
    exact (h1 c' hfound).1

/-- C1 witness. -/
theorem crack_found_only_if_verified_witness :
    verify sampleHmac ['s'] ['x'] Algorithm.HS256 [1] = true :=
  crack_found_only_if_verified sampleHmac ⟨['x'], Algorithm.HS256, [1]⟩
    [['s']] 1 [0, 0] ['s'] (by decide)

/-- C3: a completed run over a keyspace none of whose candidates
satisfies the oracle reports `Exhausted` with an attempt count equal to
the number of candidates; that number is the mode's keyspace size,
which for brute force is the closed-form `sum_{L=1..max} N ^ L`
computed without materializing the keyspace. -/
theorem exhausted_attempt_count_is_keyspace :
    (∀ (oracle : List Char → Bool) (cands : List (List Char)) (W : Nat)
      (sched : List Nat), 0 < W →
      (∀ c ∈ cands, oracle c = false) →
      allStopped (runSched oracle (initState cands W) sched) = true →
      outcomeOf (runSched oracle (initState cands W) sched) =
        CrackOutcome.exhausted ∧
      (runSched oracle (initState cands W) sched).attempts =
        cands.length) ∧
    (∀ (mode : CrackMode) (cands : List (List Char)),
      candidatesOf mode = .ok cands →
      keyspaceSize mode = some cands.length) ∧
    (∀ (chars : List Char) (max : Nat),
      (bruteforceCandidates chars max).length =
        bruteKeyspace (dedupChars chars).length max) := by
  refine ⟨?_, ?_, bruteforceCandidates_length⟩
  · intro oracle cands W sched hW hfalse hstop
    obtain ⟨h1, h2, h3, h4, h5, h6, h7⟩ := runSched_inv oracle cands W sched
    have hnone : (runSched oracle (initState cands W) sched).found =
        none := by
      cases hfound : (runSched oracle (initState cands W) sched).found with
      | none => rfl
      | some c =>
        obtain ⟨ho, hm⟩ := h1 c hfound
        rw [hfalse c hm] at ho
        exact absurd ho (by simp)
    refine ⟨?_, (run_complete_none oracle cands W sched hW hstop hnone).1⟩
    rw [outcomeOf, hnone]
  · intro mode cands hok
    cases mode with
    | dict wl =>
      cases wl with
      | none => simp [candidatesOf] at hok
      | some content =>
        simp only [candidatesOf] at hok
        injection hok with h'
        simp only [keyspaceSize, h']
    | brute chars max =>
      simp only [candidatesOf] at hok
      injection hok with h'
      simp only [keyspaceSize]
      rw [← h', bruteforceCandidates_length]

/-- C3 witness. -/
theorem exhausted_attempt_count_is_keyspace_witness :
    outcomeOf (runSched (fun _ => false) (initState [['a']] 1)
      [0, 0, 0]) = CrackOutcome.exhausted ∧
    (runSched (fun _ => false) (initState [['a']] 1) [0, 0, 0]).attempts =
      ([['a']] : List (List Char)).length :=
  exhausted_attempt_count_is_keyspace.1 (fun _ => false) [['a']] 1
    [0, 0, 0] (by decide) (by decide) (by decide)

/-- C5: a token that does not split into exactly three dot-separated
segments makes a crack run in either mode fail with `TokenFormatError`,
with zero oracle evaluations and without the Candidate Source ever
being invoked. -/
theorem malformed_token_rejected_before_cracking
    (decodeB64 : List Char → Option (List Nat))
    (algName : List Nat → Option (List Char)) (hmac : HmacFn)
    (t : List Char) (mode : CrackMode) (W : Nat) (sched : List Nat)
    (h : (t.splitOn '.').length ≠ 3) :
    crackExecute decodeB64 algName hmac t mode W sched =
      ⟨.error .tokenFormatError, 0, false⟩ := by
  unfold crackExecute decompose
  rcases hsp : t.splitOn '.' with _ | ⟨s1, _ | ⟨s2, _ | ⟨s3, _ | ⟨s4, r⟩⟩⟩⟩
  · rfl
  · rfl
  · rfl
  · rw [hsp] at h
    simp at h
  · rfl

/-- C5 witness: a two-segment token in dictionary mode. -/
theorem malformed_token_rejected_before_cracking_witness :
    crackExecute (fun _ => none) (fun _ => none) (fun _ _ _ => [])
      ('a' :: '.' :: 'b' :: []) (CrackMode.dict none) 1 [] =
      ⟨.error .tokenFormatError, 0, false⟩ :=
  malformed_token_rejected_before_cracking _ _ _ _ _ _ _ (by decide)

/-- C6 counterexample: when two distinct candidates both reproduce the
signature (an acknowledged collision scenario — here an hmac whose
digest is empty for every key, with an empty expected signature), two
completed runs of the same request under different interleavings report
`Found` with different secrets. -/
theorem crack_rerun_collision_counterexample :
    allStopped (runSched
      (oracleOf (fun _ _ _ => []) ⟨[], Algorithm.HS256, []⟩)
      (initState [['a'], ['b']] 2) [0, 0, 0, 1]) = true ∧
    allStopped (runSched
      (oracleOf (fun _ _ _ => []) ⟨[], Algorithm.HS256, []⟩)
      (initState [['a'], ['b']] 2) [0, 1, 1, 1, 0, 0]) = true ∧
    outcomeOf (runSched
      (oracleOf (fun _ _ _ => []) ⟨[], Algorithm.HS256, []⟩)
      (initState [['a'], ['b']] 2) [0, 0, 0, 1]) =
      CrackOutcome.found ['a'] ∧
    outcomeOf (runSched
      (oracleOf (fun _ _ _ => []) ⟨[], Algorithm.HS256, []⟩)
      (initState [['a'], ['b']] 2) [0, 1, 1, 1, 0, 0]) =
      CrackOutcome.found ['b'] ∧
    (['a'] : List Char) ≠ ['b'] := by
  decide

/-- C6 (amended): any two completed runs of the same request yield the
same outcome kind — both `Found` or both `Exhausted`; every reported
secret is oracle-confirmed and drawn from the keyspace; and the
reported secrets coincide whenever at most one candidate of the
keyspace satisfies the oracle (attempt counts may differ). -/
theorem crack_rerun_same_outcome_kind (oracle : List Char → Bool)
    (cands : List (List Char)) (W : Nat) (sched1 sched2 : List Nat)
    (hW : 0 < W)
    (hs1 : allStopped (runSched oracle (initState cands W) sched1) = true)
    (hs2 : allStopped (runSched oracle (initState cands W) sched2) = true) :
    ((runSched oracle (initState cands W) sched1).found.isSome =
      (runSched oracle (initState cands W) sched2).found.isSome) ∧
    ∀ c1 c2,
      (runSched oracle (initState cands W) sched1).found = some c1 →
      (runSched oracle (initState cands W) sched2).found = some c2 →
      oracle c1 = true ∧ c1 ∈ cands ∧ oracle c2 = true ∧ c2 ∈ cands ∧
      ((∀ a ∈ cands, ∀ b ∈ cands, oracle a = true → oracle b = true →
        a = b) → c1 = c2) := by
  constructor
  · have hiff1 := run_found_iff oracle cands W sched1 hW hs1
    have hiff2 := run_found_iff oracle cands W sched2 hW hs2
    by_cases hex : ∃ c ∈ cands, oracle c = true
    · rw [hiff1.mpr hex, hiff2.mpr hex]
    · have hb1 : (runSched oracle (initState cands W) sched1).found.isSome
          = false := by
        cases hb : (runSched oracle (initState cands W)
            sched1).found.isSome with
        | false => rfl
        | true => exact absurd (hiff1.mp hb) hex
      have hb2 : (runSched oracle (initState cands W) sched2).found.isSome
          = false := by
        cases hb : (runSched oracle (initState cands W)
            sched2).found.isSome with
        | false => rfl
        | true => exact absurd (hiff2.mp hb) hex
      rw [hb1, hb2]
  · intro c1 c2 hc1 hc2
    obtain ⟨u1, u2, u3, u4, u5, u6, u7⟩ :=
      runSched_inv oracle cands W sched1
    obtain ⟨v1, v2, v3, v4, v5, v6, v7⟩ :=
      runSched_inv oracle cands W sched2
    obtain ⟨ho1, hm1⟩ := u1 c1 hc1
    obtain ⟨ho2, hm2⟩ := v1 c2 hc2
    exact ⟨ho1, hm1, ho2, hm2, fun hu => hu c1 hm1 c2 hm2 ho1 ho2⟩

/-- C6 amended witness. -/
theorem crack_rerun_same_outcome_kind_witness :
    ((runSched (fun c => c == ['b']) (initState [['b']] 1)
        [0, 0, 0]).found.isSome =
      (runSched (fun c => c == ['b']) (initState [['b']] 1)
        [0, 0, 0]).found.isSome) ∧
    ∀ c1 c2,
      (runSched (fun c => c == ['b']) (initState [['b']] 1)
        [0, 0, 0]).found = some c1 →
      (runSched (fun c => c == ['b']) (initState [['b']] 1)
        [0, 0, 0]).found = some c2 →
      (c1 == (['b'] : List Char)) = true ∧ c1 ∈ [['b']] ∧
      (c2 == (['b'] : List Char)) = true ∧ c2 ∈ [['b']] ∧
      ((∀ a ∈ ([['b']] : List (List Char)), ∀ b ∈
        ([['b']] : List (List Char)), (a == ['b']) = true →
        (b == ['b']) = true → a = b) → c1 = c2) :=
  crack_rerun_same_outcome_kind (fun c => c == ['b']) [['b']] 1
    [0, 0, 0] [0, 0, 0] (by decide) (by decide) (by decide)

/-- C2 witness: the string `"ab"` itself is enumerated for alphabet
`"ab"` and `max = 2`. -/
theorem bruteforce_enumeration_witness :
    (('a' :: 'b' :: []) : List Char) ∈
      bruteforceCandidates ('a' :: 'b' :: []) 2 :=
  ((bruteforce_enumeration ('a' :: 'b' :: []) 2).2.1
    ('a' :: 'b' :: [])).mpr (by decide)

/-- C10 witness: a `Debug` record writes nothing. -/
theorem logWrite_only_up_to_info_witness :
    logWrite [] { level := Level.debug, args := ['m'] } = none :=
  (logWrite_only_up_to_info [] { level := Level.debug, args := ['m'] }).2.1

end JwtHack
